import Mathlib

/-!
Shallow embedding of the sentiment core of the election-prediction repository:
`npcheckerapp/sentiment_utils.py` (text cleaning, rule-based scoring, model-backed
scoring with fallback) and the aggregation pieces of `npcheckerapp/views.py`
(keyword extraction and padding, engagement statistics, vote-share percentages).

Modelling conventions: Python character classes are restricted to their ASCII
meaning; Python floats are modelled exactly as rationals; a fallible external
classifier or vectorizer is modelled as a function into `Except`.
-/

/-- Characters of the Python regex whitespace class, ASCII part
(space, tab, newline, carriage return, form feed, vertical tab). -/
def isSpaceB (c : Char) : Bool :=
  c.toNat = 32 || c.toNat = 9 || c.toNat = 10 || c.toNat = 13 ||
    c.toNat = 12 || c.toNat = 11

/-- Characters of the Python regex word class, ASCII part:
digits, letters, underscore. -/
def isWordB (c : Char) : Bool :=
  (48 ≤ c.toNat && c.toNat ≤ 57) || (65 ≤ c.toNat && c.toNat ≤ 90) ||
    (97 ≤ c.toNat && c.toNat ≤ 122) || c.toNat = 95

/-- ASCII lower-casing of one character, as Python str.lower acts on ASCII. -/
def toLowerA (c : Char) : Char :=
  if 65 ≤ c.toNat && c.toNat ≤ 90 then Char.ofNat (c.toNat + 32) else c

/-- ASCII upper-casing of one character, as Python str.upper acts on ASCII. -/
def toUpperA (c : Char) : Char :=
  if 97 ≤ c.toNat && c.toNat ≤ 122 then Char.ofNat (c.toNat - 32) else c

/-- True when the list starts with "http" followed by at least one
non-whitespace character, i.e. a match of the regex pattern
http followed by one-or-more non-whitespace starts here. -/
def httpHereB : List Char → Bool
  | 'h' :: 't' :: 't' :: 'p' :: c :: _ => !isSpaceB c
  | _ => false

/-- Left-to-right scanner deleting every match of the first substitution of
clean_text (pattern: http then one-or-more non-whitespace, replaced by the
empty string).  The Nat counts characters of a started match still to delete;
the Bool records that the greedy non-whitespace tail of a match is being
deleted. -/
def httpGo : Nat → Bool → List Char → List Char
  | _, _, [] => []
  | n + 1, skip, _ :: rest => httpGo n skip rest
  | 0, true, c :: rest =>
      if isSpaceB c then c :: httpGo 0 false rest else httpGo 0 true rest
  | 0, false, c :: rest =>
      if httpHereB (c :: rest) then httpGo 3 true rest else c :: httpGo 0 false rest

def remove_http (l : List Char) : List Char := httpGo 0 false l

/-- True when the list starts with a word character. -/
def headIsWord : List Char → Bool
  | d :: _ => isWordB d
  | [] => false

/-- Deletion of a marker character (the at-sign for mentions, the hash for
hashtags) whenever at least one word character follows, keeping the following
word characters: the effect of the second and third substitutions of
clean_text (marker plus captured word-run replaced by the captured run).
Re-scanning the kept word characters is harmless because a word character is
never a marker. -/
def strip_mark (m : Char) : List Char → List Char
  | [] => []
  | c :: rest =>
      if c == m && headIsWord rest then strip_mark m rest
      else c :: strip_mark m rest

/-- Replacement of every character that is neither word, whitespace nor
apostrophe by a space: the fourth substitution of clean_text. -/
def punct_to_space (c : Char) : Char :=
  if isWordB c || isSpaceB c || c == '\'' then c else ' '

/-- Removal of leading and trailing whitespace, as Python str.strip. -/
def strip_ws (l : List Char) : List Char :=
  ((l.dropWhile isSpaceB).reverse.dropWhile isSpaceB).reverse

/-- Collapse of every whitespace run into one space, as the last substitution
of clean_text; the Bool state records that a run is being consumed. -/
def wsGo : Bool → List Char → List Char
  | _, [] => []
  | true, c :: rest => if isSpaceB c then wsGo true rest else c :: wsGo false rest
  | false, c :: rest =>
      if isSpaceB c then ' ' :: wsGo true rest else c :: wsGo false rest

def collapse_ws (l : List Char) : List Char := wsGo false l

/-- Presence of a URL-like token: some suffix starts with "http" followed by
a non-whitespace character.  A second cleaning pass differs from the first
exactly when the first pass produces such a token. -/
def hasHttpTok : List Char → Bool
  | [] => false
  | c :: rest => httpHereB (c :: rest) || hasHttpTok rest

/-- Characters surviving punctuation replacement: word, whitespace or apostrophe. -/
def classB (c : Char) : Bool := isWordB c || isSpaceB c || c == '\''

/-- Shape of collapsed text: every whitespace character is a plain space and
is followed by a non-whitespace character (or ends the text). -/
def goodWs : List Char → Bool
  | [] => true
  | [c] => !isSpaceB c || (c == ' ')
  | c :: d :: rest => (!isSpaceB c || ((c == ' ') && !isSpaceB d)) && goodWs (d :: rest)

/-- Input of clean_text: Python hands it either a string or some non-string
value (the isinstance check only distinguishes these two cases). -/
inductive PyVal where
  | str (s : String)
  | nonStr

/-- The cleaning pipeline of EnhancedSentimentAnalyzer.clean_text on the
character list of a string: remove URL-like tokens, unwrap mentions, unwrap
hashtags, replace other punctuation by spaces, lower-case, strip, collapse
whitespace. -/
def clean_list (l : List Char) : List Char :=
  collapse_ws (strip_ws (((strip_mark '#' (strip_mark '@'
    (remove_http l))).map punct_to_space).map toLowerA))

/-- EnhancedSentimentAnalyzer.clean_text: empty string for non-string input,
the cleaning pipeline otherwise. -/
def clean_text : PyVal → String
  | .str s => String.mk (clean_list s.data)
  | .nonStr => ""

/-- The strong-positive lexicon of _rule_based_sentiment. -/
def strong_positive : List String :=
  ["excellent", "amazing", "wonderful", "fantastic", "outstanding",
   "brilliant", "superb", "perfect", "exceptional", "phenomenal"]

/-- The positive lexicon of _rule_based_sentiment. -/
def positive : List String :=
  ["good", "great", "nice", "better", "improved", "positive",
   "support", "like", "love", "approve", "recommend"]

/-- The negative lexicon of _rule_based_sentiment. -/
def negative : List String :=
  ["bad", "poor", "worse", "negative", "dislike", "hate",
   "problem", "issue", "concern", "criticize", "oppose"]

/-- The strong-negative lexicon of _rule_based_sentiment. -/
def strong_negative : List String :=
  ["terrible", "awful", "horrible", "disastrous", "catastrophic",
   "dreadful", "appalling", "atrocious", "deplorable", "abysmal"]

/-- Containment of pat as a contiguous substring, as the Python membership
operator on strings (the check `word in text`). -/
def subOf (pat : List Char) : List Char → Bool
  | [] => pat.isEmpty
  | c :: rest => List.isPrefixOf pat (c :: rest) || subOf pat rest

/-- Number of strong-positive lexicon words present in the text, each counted
at most once (the generator-sum over the lexicon in _rule_based_sentiment). -/
def strong_pos_count (t : List Char) : ℕ :=
  strong_positive.countP (fun w => subOf w.data t)

/-- Number of positive lexicon words present in the text. -/
def pos_count (t : List Char) : ℕ :=
  positive.countP (fun w => subOf w.data t)

/-- Number of negative lexicon words present in the text. -/
def neg_count (t : List Char) : ℕ :=
  negative.countP (fun w => subOf w.data t)

/-- Number of strong-negative lexicon words present in the text. -/
def strong_neg_count (t : List Char) : ℕ :=
  strong_negative.countP (fun w => subOf w.data t)

/-- Weighted positive mass (`total_positive` in the code): strong matches
count twice. -/
def total_positive (t : List Char) : ℕ := strong_pos_count t * 2 + pos_count t

/-- Weighted negative mass (`total_negative` in the code). -/
def total_negative (t : List Char) : ℕ := strong_neg_count t * 2 + neg_count t

/-- EnhancedSentimentAnalyzer._rule_based_sentiment: lower-case the text,
count lexicon words by substring presence, weight strong matches twice and
decide among the five fixed scores. -/
def rule_based_sentiment (s : String) : ℚ :=
  let t := s.data.map toLowerA
  if total_positive t > total_negative t then
    if strong_pos_count t > 0 then 8/10 else 5/10
  else if total_negative t > total_positive t then
    if strong_neg_count t > 0 then -8/10 else -5/10
  else 0

/-- The category-to-score dictionary of analyze_sentiment; a label outside the
dictionary yields the default 0 (the second argument of dict.get). -/
def sentiment_map (label : String) : ℚ :=
  if label = "strong_negative" then -9/10
  else if label = "negative" then -6/10
  else if label = "neutral" then 0
  else if label = "positive" then 6/10
  else if label = "strong_positive" then 9/10
  else 0

/-- EnhancedSentimentAnalyzer.analyze_sentiment: clean the text; when both a
vectorizer and a model are loaded, vectorize and predict inside a try-block
whose failure (modelled by `Except.error`) falls back to the rule-based score
of the same cleaned text; without loaded artifacts, use the rule-based score
directly. -/
def analyze_sentiment {F : Type} (vec : Option (String → Except String F))
    (model : Option (F → Except String String)) (text : PyVal) : ℚ :=
  let cleaned := clean_text text
  match vec, model with
  | some v, some m =>
      match (v cleaned).bind m with
      | .ok label => sentiment_map label
      | .error _ => rule_based_sentiment cleaned
  | _, _ => rule_based_sentiment cleaned

/-- The fixed keyword allowlist of views.extract_keywords. -/
def keyword_allowlist : List String :=
  ["economy", "apc", "pdp", "lp", "reform", "manifesto",
   "experience", "governance", "unity", "youth", "change",
   "accountability", "development", "education", "security",
   "jobs", "nigeria", "vote", "leadership"]

/-- The punctuation characters stripped from token edges in extract_keywords
(the argument of str.strip there). -/
def strip_chars : List Char := ['.', ',', '!', '?', '"', ';', ':', '(', ')', '[', ']']

/-- Removal of leading and trailing characters of the strip set, as
str.strip with an explicit character set. -/
def strip_edges (w : List Char) : List Char :=
  ((w.dropWhile (fun c => strip_chars.contains c)).reverse.dropWhile
    (fun c => strip_chars.contains c)).reverse

/-- Whitespace splitting that discards empty pieces, as Python str.split with
no argument; cur accumulates the characters of the current token in reverse. -/
def tokensGo (cur : List Char) : List Char → List (List Char)
  | [] => if cur.isEmpty then [] else [cur.reverse]
  | c :: rest =>
      if isSpaceB c then
        if cur.isEmpty then tokensGo [] rest else cur.reverse :: tokensGo [] rest
      else tokensGo (c :: cur) rest

def tokensWs (l : List Char) : List (List Char) := tokensGo [] l

/-- views.extract_keywords: lower-case, split on whitespace, strip punctuation
from token edges, keep allowlist members upper-cased, in encounter order. -/
def extract_keywords (text : String) : List String :=
  let words := tokensWs (text.data.map toLowerA)
  words.filterMap (fun w =>
    let c := strip_edges w
    if keyword_allowlist.contains (String.mk c) then
      some (String.mk (c.map toUpperA))
    else none)

/-- First-occurrence deduplication.  The code builds `list(set(all_keywords))`
whose iteration order CPython leaves unspecified (hash-based); the embedding
fixes encounter order, which no proved statement depends on. -/
def dedupGo (seen : List String) : List String → List String
  | [] => []
  | x :: rest =>
      if x ∈ seen then dedupGo seen rest else x :: dedupGo (x :: seen) rest

def dedup_first (l : List String) : List String := dedupGo [] l

/-- The per-candidate fallback keyword lists of get_results. -/
def fallback_keywords : String → List String
  | "tinubu" => ["ECONOMY", "APC", "REFORM", "MANIFESTO"]
  | "atiku" => ["EXPERIENCE", "PDP", "GOVERNANCE", "UNITY"]
  | "obi" => ["YOUTH", "LP", "CHANGE", "ACCOUNTABILITY"]
  | _ => []

/-- Keyword aggregation of get_results for one candidate: extract keywords
from every sampled text, deduplicate, keep four, and when fewer than four
remain append the candidate's fallback list and keep the first four. -/
def top_keywords (candidate : String) (texts : List String) : List String :=
  let all := (texts.map extract_keywords).flatten
  let tk := (dedup_first all).take 4
  if tk.length < 4 then (tk ++ fallback_keywords candidate).take 4 else tk

/-- Rounding half to even on rationals, as Python round on exact values (the
additional binary-float noise of CPython is immaterial to every property
stated below, all robust to any half-ulp rounding). -/
def roundEven (q : ℚ) : ℤ :=
  if Int.fract q < 1/2 then ⌊q⌋
  else if 1/2 < Int.fract q then ⌊q⌋ + 1
  else if ⌊q⌋ % 2 = 0 then ⌊q⌋ else ⌊q⌋ + 1

/-- Rounding to two decimal places, as round(x, 2) in get_results. -/
def round2 (q : ℚ) : ℚ := (roundEven (q * 100) : ℚ) / 100

/-- Cross-candidate vote-share computation of get_results on the collected
per-candidate average-sentiment lists (ml averages first, stored averages as
fallback), before rounding: scale absolute strengths to percentages, with the
fixed 40/35/25 split when both strength sums are zero, and positional
defaults for missing entries. -/
def compute_percents (mlVals origVals : List ℚ) : ℚ × ℚ × ℚ :=
  let totalStrength := (mlVals.map (fun v => |v|)).sum
  if totalStrength = 0 then
    let t2 := (origVals.map (fun v => |v|)).sum
    if t2 = 0 then (40, 35, 25)
    else
      let ps := origVals.map (fun sv => |sv| / t2 * 100)
      (ps.getD 0 40, ps.getD 1 35, ps.getD 2 25)
  else
    let ps := mlVals.map (fun sv => |sv| / totalStrength * 100)
    (ps.getD 0 40, ps.getD 1 35, ps.getD 2 25)

/-- The three vote_share_percent values finally stored by get_results:
the computed percentages rounded to two decimals. -/
def vote_share_percents (mlVals origVals : List ℚ) : ℚ × ℚ × ℚ :=
  let p := compute_percents mlVals origVals
  (round2 p.1, round2 p.2.1, round2 p.2.2)

/-- avg_likes of get_results: Python int() applied to the true-division mean
truncates, which on nonnegative counts is floor division. -/
def avg_likes (likes : List ℕ) : ℕ :=
  if likes.isEmpty then 0 else likes.sum / likes.length

/-- avg_retweets of get_results, same truncated mean. -/
def avg_retweets (rts : List ℕ) : ℕ :=
  if rts.isEmpty then 0 else rts.sum / rts.length

/-- total_reach of get_results: likes plus twice retweets. -/
def total_reach (likes rts : List ℕ) : ℕ := likes.sum + rts.sum * 2

/-- Average stated by the spec for the engagement summary, for comparison:
round of the mean (the code truncates instead). -/
def spec_avg_likes (likes : List ℕ) : ℤ :=
  if likes.isEmpty then 0 else roundEven ((likes.sum : ℚ) / (likes.length : ℚ))

/-- C1: for every text, the rule-based scorer decides by the weighted masses
pos_mass = 2*strong_pos_count + pos_count and neg_mass = 2*strong_neg_count +
neg_count computed over the four fixed lexicons: 0.8 when the positive mass
wins with a strong-positive hit, 0.5 when it wins without one, -0.8 and -0.5
symmetrically for the negative mass, 0 on a tie; moreover a text containing
"excellent" and no negative or strong-negative lexicon word scores 0.8, and
the text "good bad" scores 0. -/
theorem rule_based_decision (s : String) :
    (2 * strong_pos_count (s.data.map toLowerA) + pos_count (s.data.map toLowerA) >
        2 * strong_neg_count (s.data.map toLowerA) + neg_count (s.data.map toLowerA) →
      strong_pos_count (s.data.map toLowerA) > 0 → rule_based_sentiment s = 8/10) ∧
    (2 * strong_pos_count (s.data.map toLowerA) + pos_count (s.data.map toLowerA) >
        2 * strong_neg_count (s.data.map toLowerA) + neg_count (s.data.map toLowerA) →
      strong_pos_count (s.data.map toLowerA) = 0 → rule_based_sentiment s = 5/10) ∧
    (2 * strong_neg_count (s.data.map toLowerA) + neg_count (s.data.map toLowerA) >
        2 * strong_pos_count (s.data.map toLowerA) + pos_count (s.data.map toLowerA) →
      strong_neg_count (s.data.map toLowerA) > 0 → rule_based_sentiment s = -8/10) ∧
    (2 * strong_neg_count (s.data.map toLowerA) + neg_count (s.data.map toLowerA) >
        2 * strong_pos_count (s.data.map toLowerA) + pos_count (s.data.map toLowerA) →
      strong_neg_count (s.data.map toLowerA) = 0 → rule_based_sentiment s = -5/10) ∧
    (2 * strong_pos_count (s.data.map toLowerA) + pos_count (s.data.map toLowerA) =
        2 * strong_neg_count (s.data.map toLowerA) + neg_count (s.data.map toLowerA) →
      rule_based_sentiment s = 0) ∧
    (subOf "excellent".data (s.data.map toLowerA) = true →
      neg_count (s.data.map toLowerA) = 0 → strong_neg_count (s.data.map toLowerA) = 0 →
      rule_based_sentiment s = 8/10) := by
  set t := s.data.map toLowerA with ht
  have hunfold : rule_based_sentiment s =
      if total_positive t > total_negative t then
        if strong_pos_count t > 0 then 8/10 else 5/10
      else if total_negative t > total_positive t then
        if strong_neg_count t > 0 then -8/10 else -5/10
      else 0 := rfl
  have hp : total_positive t = strong_pos_count t * 2 + pos_count t := rfl
  have hn : total_negative t = strong_neg_count t * 2 + neg_count t := rfl
  refine ⟨?_, ?_, ?_, ?_, ?_, ?_⟩
  · intro hgt hsp
    rw [hunfold, if_pos (by omega), if_pos hsp]
  · intro hgt hsp
    rw [hunfold, if_pos (by omega), if_neg (by omega)]
  · intro hgt hsn
    rw [hunfold, if_neg (by omega), if_pos (by omega), if_pos hsn]
  · intro hgt hsn
    rw [hunfold, if_neg (by omega), if_pos (by omega), if_neg (by omega)]
  · intro heq
    rw [hunfold, if_neg (by omega), if_neg (by omega)]
  · intro hex hneg hsneg
    have hsp : 0 < strong_pos_count t := by
      apply List.countP_pos_iff.mpr
      exact ⟨"excellent", by decide, by simpa using hex⟩
    rw [hunfold, if_pos (by omega), if_pos hsp]

/-- Witness for rule_based_decision: every branch of the decision is reached
at a concrete input with its hypotheses checked by evaluation. -/
theorem rule_based_decision_w :
    rule_based_sentiment "excellent" = 8/10 ∧
    rule_based_sentiment "good" = 5/10 ∧
    rule_based_sentiment "terrible" = -8/10 ∧
    rule_based_sentiment "bad" = -5/10 ∧
    rule_based_sentiment "good bad" = 0 :=
  ⟨(rule_based_decision "excellent").2.2.2.2.2 (by decide) (by decide) (by decide),
   (rule_based_decision "good").2.1 (by decide) (by decide),
   (rule_based_decision "terrible").2.2.1 (by decide) (by decide),
   (rule_based_decision "bad").2.2.2.1 (by decide) (by decide),
   (rule_based_decision "good bad").2.2.2.2.1 (by decide)⟩

/-- C10: lexicon words are counted by presence (each word of a lexicon counts
at most once no matter how often it occurs) and matched as raw substrings; on
the single-word input "dislike" both the negative word "dislike" and the
positive word "like" match, the masses tie, and the score is 0. -/
theorem rule_based_presence (t : List Char) :
    (strong_pos_count t ≤ strong_positive.length ∧ pos_count t ≤ positive.length ∧
     neg_count t ≤ negative.length ∧ strong_neg_count t ≤ strong_negative.length) ∧
    subOf "like".data "dislike".data = true ∧
    subOf "dislike".data "dislike".data = true ∧
    pos_count ("dislike".data.map toLowerA) = 1 ∧
    neg_count ("dislike".data.map toLowerA) = 1 ∧
    strong_pos_count ("dislike".data.map toLowerA) = 0 ∧
    strong_neg_count ("dislike".data.map toLowerA) = 0 ∧
    neg_count ("bad bad bad".data.map toLowerA) = 1 ∧
    rule_based_sentiment "dislike" = 0 :=
  ⟨⟨List.countP_le_length _, List.countP_le_length _,
    List.countP_le_length _, List.countP_le_length _⟩,
   by decide, by decide, by decide, by decide, by decide, by decide, by decide,
   (rule_based_decision "dislike").2.2.2.2.1 (by decide)⟩

/-- C7: the documented normalization scenario, evaluated on the embedded
cleaning pipeline. -/
theorem clean_text_scenario :
    clean_text (.str "Check this out http://x.co @JohnDoe #economy reform!!") =
      "check this out johndoe economy reform" := by decide

/-- C5: for every input and every present, absent or failing
classifier/vectorizer pair the returned score lies in the closed interval
from -1 to 1, and every label outside the five-entry dictionary maps to 0. -/
theorem analyze_sentiment_bounded {F : Type} (vec : Option (String → Except String F))
    (model : Option (F → Except String String)) (text : PyVal) (label : String) :
    (-1 ≤ analyze_sentiment vec model text ∧ analyze_sentiment vec model text ≤ 1) ∧
    (label ∉ ["strong_negative", "negative", "neutral", "positive", "strong_positive"] →
      sentiment_map label = 0) := by
  have hrule : ∀ u : String, -1 ≤ rule_based_sentiment u ∧ rule_based_sentiment u ≤ 1 := by
    intro u
    simp only [rule_based_sentiment]
    split_ifs <;> norm_num
  have hmap : ∀ lab : String, -1 ≤ sentiment_map lab ∧ sentiment_map lab ≤ 1 := by
    intro lab
    simp only [sentiment_map]
    split_ifs <;> norm_num
  constructor
  · rcases vec with _ | v
    · simpa only [analyze_sentiment] using hrule (clean_text text)
    · rcases model with _ | m
      · simpa only [analyze_sentiment] using hrule (clean_text text)
      · rcases hbind : (v (clean_text text)).bind m with e | lab
        · simpa only [analyze_sentiment, hbind] using hrule (clean_text text)
        · simpa only [analyze_sentiment, hbind] using hmap lab
  · intro h
    simp only [List.mem_cons, List.not_mem_nil, or_false, not_or] at h
    obtain ⟨h1, h2, h3, h4, h5⟩ := h
    simp only [sentiment_map, if_neg h1, if_neg h2, if_neg h3, if_neg h4, if_neg h5]

/-- Witness for analyze_sentiment_bounded at a concrete artifact pair that
produces a label outside the dictionary. -/
theorem analyze_sentiment_bounded_w :
    (-1 ≤ analyze_sentiment (F := Unit) (some fun _ => Except.ok ())
        (some fun _ => Except.ok "mystery") (.str "x") ∧
      analyze_sentiment (F := Unit) (some fun _ => Except.ok ())
        (some fun _ => Except.ok "mystery") (.str "x") ≤ 1) ∧
    sentiment_map "mystery" = 0 :=
  ⟨(analyze_sentiment_bounded (F := Unit) (some fun _ => Except.ok ())
      (some fun _ => Except.ok "mystery") (.str "x") "mystery").1,
   (analyze_sentiment_bounded (F := Unit) (some fun _ => Except.ok ())
      (some fun _ => Except.ok "mystery") (.str "x") "mystery").2 (by decide)⟩

/-- C6: whenever vectorization or prediction fails on the cleaned text, the
model-backed call returns exactly the rule-based score of that cleaned text
(no error reaches the caller: the function is total and lands in the
fallback branch). -/
theorem analyze_sentiment_fallback {F : Type} (v : String → Except String F)
    (m : F → Except String String) (text : PyVal) (e : String)
    (h : (v (clean_text text)).bind m = Except.error e) :
    analyze_sentiment (some v) (some m) text = rule_based_sentiment (clean_text text) := by
  simp only [analyze_sentiment, h]

/-- Witness for analyze_sentiment_fallback: a vectorizer that always raises. -/
theorem analyze_sentiment_fallback_w :
    analyze_sentiment (F := Unit) (some fun _ => Except.error "vectorize failure")
        (some fun _ => Except.ok "positive") (.str "good day") =
      rule_based_sentiment (clean_text (.str "good day")) :=
  analyze_sentiment_fallback (fun _ => Except.error "vectorize failure")
    (fun _ => Except.ok "positive") (.str "good day") "vectorize failure" rfl

/-- C8 counterexample: with a loaded classifier that labels the (empty)
cleaned text "positive", a non-string input is scored 0.6, not the neutral
0.0 the claim asserts for every configuration. -/
theorem nonstring_score_counterexample :
    analyze_sentiment (F := Unit) (some fun _ => Except.ok ())
      (some fun _ => Except.ok "positive") .nonStr = 6/10 ∧ (6/10 : ℚ) ≠ 0 :=
  ⟨rfl, by norm_num⟩

/-- C8 amended: non-string and empty input normalize to the empty string
without error, and on the rule-based path (no model loaded, or for any text
normalizing to empty) the score is the neutral 0; a loaded classifier,
however, may assign the empty cleaned text any dictionary score. -/
theorem nonstring_neutral (text : PyVal) (h : clean_text text = "") :
    clean_text PyVal.nonStr = "" ∧ clean_text (.str "") = "" ∧
    rule_based_sentiment "" = 0 ∧
    analyze_sentiment (F := Unit) none none text = 0 := by
  have h0 : rule_based_sentiment "" = 0 :=
    (rule_based_decision "").2.2.2.2.1 (by decide)
  refine ⟨rfl, by decide, h0, ?_⟩
  show rule_based_sentiment (clean_text text) = 0
  rw [h, h0]

/-- Witness for nonstring_neutral at the empty string. -/
theorem nonstring_neutral_w :
    clean_text (.str "") = "" ∧ analyze_sentiment (F := Unit) none none (.str "") = 0 :=
  ⟨(nonstring_neutral (.str "") (by decide)).2.1,
   (nonstring_neutral (.str "") (by decide)).2.2.2⟩

/-- C9 counterexample: on the sample with likes [1, 2] the code's average
(int truncation of the mean) is 1 while the round-of-mean the claim states
is 2. -/
theorem engagement_round_counterexample :
    avg_likes [1, 2] = 1 ∧ spec_avg_likes [1, 2] = 2 ∧ (1 : ℤ) ≠ 2 := by
  refine ⟨by decide, ?_, by decide⟩
  norm_num [spec_avg_likes, roundEven, Int.fract]

/-- C9 amended: for every nonempty sample the engagement summary satisfies
avg_likes = floor(mean(likes)) (truncation, not rounding), avg_retweets =
floor(mean(retweets)), and total_reach = sum(likes) + 2*sum(retweets). -/
theorem engagement_stats (likes rts : List ℕ) (h1 : likes ≠ []) (h2 : rts ≠ []) :
    avg_likes likes = ⌊(likes.sum : ℚ) / (likes.length : ℚ)⌋₊ ∧
    avg_retweets rts = ⌊(rts.sum : ℚ) / (rts.length : ℚ)⌋₊ ∧
    total_reach likes rts = likes.sum + 2 * rts.sum := by
  have key : ∀ l : List ℕ, l ≠ [] →
      (if l.isEmpty then 0 else l.sum / l.length) = ⌊(l.sum : ℚ) / (l.length : ℚ)⌋₊ := by
    intro l hl
    rw [if_neg (by simpa using hl)]
    rw [Nat.floor_div_nat, Nat.floor_natCast]
  refine ⟨key likes h1, key rts h2, ?_⟩
  unfold total_reach
  omega

/-- Witness for engagement_stats on a concrete nonempty sample. -/
theorem engagement_stats_w :
    avg_likes [1, 2] = ⌊(([1, 2] : List ℕ).sum : ℚ) / (([1, 2] : List ℕ).length : ℚ)⌋₊ ∧
    total_reach [1, 2] [3] = ([1, 2] : List ℕ).sum + 2 * ([3] : List ℕ).sum :=
  ⟨(engagement_stats [1, 2] [3] (by decide) (by decide)).1,
   (engagement_stats [1, 2] [3] (by decide) (by decide)).2.2⟩

/-- C3 counterexample: for candidate tinubu and the single sampled text
"economy", padding appends the fallback list without excluding the keyword
already extracted, so ECONOMY appears twice and the result is not
duplicate-free. -/
theorem top_keywords_duplicate :
    top_keywords "tinubu" ["economy"] = ["ECONOMY", "ECONOMY", "APC", "REFORM"] ∧
    ¬ (top_keywords "tinubu" ["economy"]).Nodup := ⟨by decide, by decide⟩

/-- Deduplication keeps elements not yet seen, so its output has no
duplicates and avoids the seen accumulator. -/
theorem dedupGo_spec (l : List String) : ∀ seen : List String,
    (dedupGo seen l).Nodup ∧ ∀ x ∈ dedupGo seen l, x ∉ seen := by
  induction l with
  | nil => intro seen; simp [dedupGo]
  | cons a rest ih =>
    intro seen
    simp only [dedupGo]
    split_ifs with ha
    · exact ⟨(ih seen).1, fun x hx => (ih seen).2 x hx⟩
    · obtain ⟨hnd, hmem⟩ := ih (a :: seen)
      refine ⟨List.nodup_cons.mpr ⟨fun hx => (hmem a hx) (List.mem_cons_self a seen), hnd⟩, ?_⟩
      intro x hx
      rcases List.mem_cons.mp hx with rfl | hx'
      · exact ha
      · exact fun hxs => (hmem x hx') (List.mem_cons_of_mem a hxs)

/-- C3 amended: for each of the three known candidates and every sequence of
sampled texts (the empty sequence included) the keyword computation returns
exactly 4 keywords, and the extracted-and-deduplicated portion is
duplicate-free; padding, however, may duplicate an already-present keyword
(see the counterexample). -/
theorem top_keywords_length (candidate : String) (texts : List String)
    (h : candidate = "tinubu" ∨ candidate = "atiku" ∨ candidate = "obi") :
    (top_keywords candidate texts).length = 4 ∧
    (dedup_first ((texts.map extract_keywords).flatten)).Nodup := by
  have hfb : (fallback_keywords candidate).length = 4 := by
    rcases h with h | h | h <;> subst h <;> decide
  constructor
  · simp only [top_keywords]
    split_ifs with hlt
    · simp only [List.length_take, List.length_append, hfb]
      omega
    · simp only [List.length_take] at hlt ⊢
      omega
  · exact (dedupGo_spec _ []).1

/-- Witness for top_keywords_length: candidate tinubu with no sampled texts. -/
theorem top_keywords_length_w :
    (top_keywords "tinubu" []).length = 4 ∧
    (dedup_first ((([] : List String).map extract_keywords).flatten)).Nodup :=
  top_keywords_length "tinubu" [] (Or.inl rfl)

/-- Error bound of half-to-even rounding: the rounded value differs from the
argument by at most one half. -/
theorem abs_roundEven_sub (q : ℚ) : |(roundEven q : ℚ) - q| ≤ 1/2 := by
  have hf0 : 0 ≤ Int.fract q := Int.fract_nonneg q
  have hf1 : Int.fract q < 1 := Int.fract_lt_one q
  have hfl : (⌊q⌋ : ℚ) = q - Int.fract q := by
    rw [Int.fract]; ring
  unfold roundEven
  split_ifs with h1 h2 h3 <;> push_cast <;> rw [abs_le] <;> constructor <;> linarith

/-- Three rationals summing to 100, each rounded to two decimals, sum to 100
up to one hundredth: the three rounding errors are at most half a hundredth
each and their sum is an integer number of hundredths. -/
theorem sum3_round2 (x y z : ℚ) (h : x + y + z = 100) :
    |round2 x + round2 y + round2 z - 100| ≤ 1/100 := by
  have hx := abs_roundEven_sub (x * 100)
  have hy := abs_roundEven_sub (y * 100)
  have hz := abs_roundEven_sub (z * 100)
  set nx := roundEven (x * 100) with hnx
  set ny := roundEven (y * 100) with hny
  set nz := roundEven (z * 100) with hnz
  have hb : |(nx : ℚ) + ny + nz - 10000| ≤ 3/2 := by
    have he : (nx : ℚ) + ny + nz - 10000 =
        ((nx : ℚ) - x * 100) + (((ny : ℚ) - y * 100) + ((nz : ℚ) - z * 100)) := by
      have : x * 100 + y * 100 + z * 100 = 10000 := by linarith
      linarith
    rw [he]
    calc |((nx : ℚ) - x * 100) + (((ny : ℚ) - y * 100) + ((nz : ℚ) - z * 100))|
        ≤ |(nx : ℚ) - x * 100| + |((ny : ℚ) - y * 100) + ((nz : ℚ) - z * 100)| := abs_add _ _
      _ ≤ |(nx : ℚ) - x * 100| + (|(ny : ℚ) - y * 100| + |(nz : ℚ) - z * 100|) := by
          have := abs_add ((ny : ℚ) - y * 100) ((nz : ℚ) - z * 100)
          linarith
      _ ≤ 3/2 := by linarith
  have hint : |nx + ny + nz - 10000| ≤ 1 := by
    have hcast : |((nx + ny + nz - 10000 : ℤ) : ℚ)| ≤ 3/2 := by
      push_cast
      exact hb
    rw [← Int.cast_abs] at hcast
    have hlt : ((|nx + ny + nz - 10000| : ℤ) : ℚ) < 2 := lt_of_le_of_lt hcast (by norm_num)
    have : |nx + ny + nz - 10000| < 2 := by exact_mod_cast hlt
    omega
  have hrw : round2 x + round2 y + round2 z - 100 = ((nx + ny + nz - 10000 : ℤ) : ℚ) / 100 := by
    simp only [round2]
    push_cast
    ring
  rw [hrw, abs_div]
  have habs : |((nx + ny + nz - 10000 : ℤ) : ℚ)| ≤ 1 := by
    rw [← Int.cast_abs]
    exact_mod_cast hint
  rw [abs_of_pos (show (0:ℚ) < 100 by norm_num)]
  rw [div_le_div_iff₀ (by norm_num) (by norm_num)]
  linarith

/-- C2: whenever all three candidates have data (both average lists have
three entries) the three rounded vote_share_percent values sum to 100 within
0.01; and when every candidate average is zero on both the ml and the stored
side, the aggregator returns the fixed 40/35/25 split instead of dividing by
zero. -/
theorem vote_share_sum_and_default (ml orig : List ℚ) :
    (ml.length = 3 → orig.length = 3 →
      |(vote_share_percents ml orig).1 + (vote_share_percents ml orig).2.1 +
        (vote_share_percents ml orig).2.2 - 100| ≤ 1/100) ∧
    ((∀ v ∈ ml, v = 0) → (∀ v ∈ orig, v = 0) →
      compute_percents ml orig = (40, 35, 25) ∧
      vote_share_percents ml orig = (40, 35, 25)) := by
  have hdef : |round2 40 + round2 35 + round2 25 - 100| ≤ 1/100 :=
    sum3_round2 40 35 25 (by norm_num)
  have hshare : ∀ a b c : ℚ, |a| + (|b| + |c|) ≠ 0 →
      |a| / (|a| + (|b| + |c|)) * 100 + |b| / (|a| + (|b| + |c|)) * 100 +
        |c| / (|a| + (|b| + |c|)) * 100 = 100 := by
    intro a b c hT
    field_simp
    ring
  have hsum : ∀ (l : List ℚ), (∀ v ∈ l, v = 0) → (l.map (fun v => |v|)).sum = 0 := by
    intro l hl
    apply List.sum_eq_zero
    intro x hx
    rcases List.mem_map.mp hx with ⟨v, hv, rfl⟩
    rw [hl v hv, abs_zero]
  constructor
  · intro hml horig
    obtain ⟨a, b, c, rfl⟩ : ∃ a b c, ml = [a, b, c] := by
      match ml, hml with
      | [a, b, c], _ => exact ⟨a, b, c, rfl⟩
    obtain ⟨d, e, f, rfl⟩ : ∃ d e f, orig = [d, e, f] := by
      match orig, horig with
      | [d, e, f], _ => exact ⟨d, e, f, rfl⟩
    simp only [vote_share_percents, compute_percents, List.map_cons, List.map_nil,
      List.sum_cons, List.sum_nil, add_zero]
    split_ifs with h1 h2
    · exact hdef
    · simp only [List.getD_cons_zero, List.getD_cons_succ]
      exact sum3_round2 _ _ _ (hshare d e f h2)
    · simp only [List.getD_cons_zero, List.getD_cons_succ]
      exact sum3_round2 _ _ _ (hshare a b c h1)
  · intro hml horig
    have h40 : round2 40 = 40 := by norm_num [round2, roundEven, Int.fract]
    have h35 : round2 35 = 35 := by norm_num [round2, roundEven, Int.fract]
    have h25 : round2 25 = 25 := by norm_num [round2, roundEven, Int.fract]
    have hcp : compute_percents ml orig = (40, 35, 25) := by
      simp only [compute_percents]
      split_ifs with h1 h2
      · rfl
      · exact absurd (hsum orig horig) h2
      · exact absurd (hsum ml hml) h1
    refine ⟨hcp, ?_⟩
    simp only [vote_share_percents, hcp, h40, h35, h25]

/-- Witness for vote_share_sum_and_default: three candidates with all-zero
averages; the rounded shares are the default split and sum to 100. -/
theorem vote_share_sum_and_default_w :
    |(vote_share_percents [0, 0, 0] [0, 0, 0]).1 +
      (vote_share_percents [0, 0, 0] [0, 0, 0]).2.1 +
      (vote_share_percents [0, 0, 0] [0, 0, 0]).2.2 - 100| ≤ 1/100 ∧
    vote_share_percents [0, 0, 0] [0, 0, 0] = (40, 35, 25) := by
  have hz : ∀ v ∈ ([0, 0, 0] : List ℚ), v = 0 := by
    intro v hv
    simp only [List.mem_cons, List.not_mem_nil, or_false] at hv
    rcases hv with rfl | rfl | rfl <;> rfl
  exact ⟨(vote_share_sum_and_default [0, 0, 0] [0, 0, 0]).1 rfl rfl,
    ((vote_share_sum_and_default [0, 0, 0] [0, 0, 0]).2 hz hz).2⟩

/-- Evaluation of Char.ofNat over the lower-case letter range. -/
theorem toNat_ofNat_lower (m : ℕ) (h1 : 97 ≤ m) (h2 : m ≤ 122) :
    (Char.ofNat m).toNat = m := by
  interval_cases m <;> rfl

/-- Lower-casing an upper-case letter adds 32 to its code point. -/
theorem toLowerA_toNat_of_upper (c : Char) (h : 65 ≤ c.toNat ∧ c.toNat ≤ 90) :
    (toLowerA c).toNat = c.toNat + 32 := by
  unfold toLowerA
  rw [if_pos (by simp only [Bool.and_eq_true, decide_eq_true_eq]; exact h)]
  exact toNat_ofNat_lower _ (by omega) (by omega)

/-- Lower-casing fixes every character that is not an upper-case letter. -/
theorem toLowerA_eq_self (c : Char) (h : ¬ (65 ≤ c.toNat ∧ c.toNat ≤ 90)) :
    toLowerA c = c := by
  unfold toLowerA
  rw [if_neg (by simp only [Bool.and_eq_true, decide_eq_true_eq]; exact h)]

/-- Lower-casing never produces an upper-case letter. -/
theorem toLowerA_not_upper (c : Char) :
    ¬ (65 ≤ (toLowerA c).toNat ∧ (toLowerA c).toNat ≤ 90) := by
  by_cases h : 65 ≤ c.toNat ∧ c.toNat ≤ 90
  · rw [toLowerA_toNat_of_upper c h]
    omega
  · rw [toLowerA_eq_self c h]
    exact h

/-- Lower-casing one character is idempotent. -/
theorem toLowerA_idem (c : Char) : toLowerA (toLowerA c) = toLowerA c :=
  toLowerA_eq_self _ (toLowerA_not_upper c)

/-- Characters with equal code points are equal. -/
theorem char_eq_of_toNat (a b : Char) (h : a.toNat = b.toNat) : a = b := by
  have ha := Char.ofNat_toNat a
  have hb := Char.ofNat_toNat b
  rw [← ha, ← hb, h]

/-- Punctuation replacement always lands in the surviving class. -/
theorem classB_punct (c : Char) : classB (punct_to_space c) = true := by
  unfold punct_to_space
  split_ifs with h
  · exact h
  · decide

/-- The surviving class, spelled out on code points. -/
theorem classB_toNat (c : Char) : classB c = true ↔
    (48 ≤ c.toNat ∧ c.toNat ≤ 57) ∨ (65 ≤ c.toNat ∧ c.toNat ≤ 90) ∨
    (97 ≤ c.toNat ∧ c.toNat ≤ 122) ∨ c.toNat = 95 ∨
    c.toNat = 32 ∨ c.toNat = 9 ∨ c.toNat = 10 ∨ c.toNat = 13 ∨
    c.toNat = 12 ∨ c.toNat = 11 ∨ c.toNat = 39 := by
  have hap : (c == '\'') = true ↔ c.toNat = 39 := by
    constructor
    · intro h
      rw [beq_iff_eq] at h
      subst h
      rfl
    · intro h
      rw [beq_iff_eq]
      exact char_eq_of_toNat c _ h
  simp only [classB, isWordB, isSpaceB, Bool.or_eq_true, Bool.and_eq_true,
    decide_eq_true_eq, hap]
  omega

/-- Lower-casing preserves the surviving class. -/
theorem classB_toLowerA (c : Char) (h : classB c = true) : classB (toLowerA c) = true := by
  by_cases hu : 65 ≤ c.toNat ∧ c.toNat ≤ 90
  · rw [classB_toNat, toLowerA_toNat_of_upper c hu]
    omega
  · rwa [toLowerA_eq_self c hu]

/-- No surviving character is a mention or hashtag marker. -/
theorem classB_ne_marker (c : Char) (h : classB c = true) : c ≠ '@' ∧ c ≠ '#' := by
  constructor <;> intro hc <;> subst hc <;> exact absurd h (by decide)

/-- Punctuation replacement fixes every surviving character. -/
theorem punct_eq_self (c : Char) (h : classB c = true) : punct_to_space c = c := by
  unfold punct_to_space
  rw [if_pos (show (isWordB c || isSpaceB c || c == '\'') = true from h)]

/-- URL removal is the identity on texts without a URL-like token. -/
theorem remove_http_noop (l : List Char) (h : hasHttpTok l = false) :
    remove_http l = l := by
  unfold remove_http
  induction l with
  | nil => rfl
  | cons a rest ih =>
    rw [hasHttpTok, Bool.or_eq_false_iff] at h
    rw [httpGo, if_neg (by rw [h.1]; exact Bool.false_ne_true), ih h.2]

/-- Marker deletion is the identity on texts without the marker. -/
theorem strip_mark_noop (m : Char) (l : List Char) (h : ∀ c ∈ l, c ≠ m) :
    strip_mark m l = l := by
  induction l with
  | nil => rfl
  | cons a rest ih =>
    have ha : (a == m) = false := by
      rw [beq_eq_false_iff_ne]
      exact h a (List.mem_cons_self a rest)
    rw [strip_mark, ha, Bool.false_and, if_neg Bool.false_ne_true,
      ih (fun c hc => h c (List.mem_cons_of_mem a hc))]

/-- Mapping a function that fixes every member is the identity. -/
theorem map_noop (f : Char → Char) (l : List Char) (h : ∀ c ∈ l, f c = c) :
    l.map f = l := by
  induction l with
  | nil => rfl
  | cons a rest ih =>
    rw [List.map_cons, h a (List.mem_cons_self a rest),
      ih (fun c hc => h c (List.mem_cons_of_mem a hc))]

/-- Whitespace collapsing only emits input characters and spaces. -/
theorem mem_wsGo (c : Char) (l : List Char) : ∀ b, c ∈ wsGo b l → c ∈ l ∨ c = ' ' := by
  induction l with
  | nil => intro b h; rw [wsGo] at h; exact absurd h (List.not_mem_nil c)
  | cons a rest ih =>
    intro b h
    match b with
    | true =>
      rw [wsGo] at h
      split_ifs at h with ha
      · rcases ih true h with h' | h'
        · exact Or.inl (List.mem_cons_of_mem a h')
        · exact Or.inr h'
      · rcases List.mem_cons.mp h with rfl | h'
        · exact Or.inl (List.mem_cons_self c rest)
        · rcases ih false h' with h'' | h''
          · exact Or.inl (List.mem_cons_of_mem a h'')
          · exact Or.inr h''
    | false =>
      rw [wsGo] at h
      split_ifs at h with ha
      · rcases List.mem_cons.mp h with rfl | h'
        · exact Or.inr rfl
        · rcases ih true h' with h'' | h''
          · exact Or.inl (List.mem_cons_of_mem a h'')
          · exact Or.inr h''
      · rcases List.mem_cons.mp h with rfl | h'
        · exact Or.inl (List.mem_cons_self c rest)
        · rcases ih false h' with h'' | h''
          · exact Or.inl (List.mem_cons_of_mem a h'')
          · exact Or.inr h''

/-- Stripping only removes characters. -/
theorem mem_strip_ws (c : Char) (l : List Char) (h : c ∈ strip_ws l) : c ∈ l := by
  unfold strip_ws at h
  rw [List.mem_reverse] at h
  have h1 := (List.dropWhile_suffix isSpaceB).sublist.subset h
  rw [List.mem_reverse] at h1
  exact (List.dropWhile_suffix isSpaceB).sublist.subset h1

/-- Every character of the cleaned text is word, whitespace or apostrophe,
and not an upper-case letter. -/
theorem clean_list_chars (l : List Char) :
    ∀ c ∈ clean_list l, classB c = true ∧ ¬ (65 ≤ c.toNat ∧ c.toNat ≤ 90) := by
  intro c hc
  unfold clean_list collapse_ws at hc
  rcases mem_wsGo c _ false hc with hc1 | rfl
  · have hc2 := mem_strip_ws c _ hc1
    rcases List.mem_map.mp hc2 with ⟨d, hd, rfl⟩
    rcases List.mem_map.mp hd with ⟨e, _, rfl⟩
    exact ⟨classB_toLowerA _ (classB_punct e), toLowerA_not_upper _⟩
  · exact ⟨by decide, by decide⟩

/-- The head surviving dropWhile fails the predicate. -/
theorem dropWhile_head_not (p : Char → Bool) (l : List Char) (c : Char)
    (h : (l.dropWhile p).head? = some c) : p c = false := by
  induction l with
  | nil => simp [List.dropWhile] at h
  | cons a rest ih =>
    rw [List.dropWhile_cons] at h
    split_ifs at h with ha
    · exact ih h
    · rw [List.head?_cons, Option.some.injEq] at h
      subst h
      exact Bool.not_eq_true _ |>.mp ha

/-- dropWhile is the identity when the head already fails the predicate. -/
theorem dropWhile_eq_self (p : Char → Bool) (l : List Char)
    (h : ∀ c, l.head? = some c → p c = false) : l.dropWhile p = l := by
  cases l with
  | nil => rfl
  | cons a rest =>
    rw [List.dropWhile_cons, if_neg (by rw [h a rfl]; exact Bool.false_ne_true)]

/-- Stripping is the identity on texts without leading or trailing whitespace. -/
theorem strip_ws_noop (l : List Char)
    (h1 : ∀ c, l.head? = some c → isSpaceB c = false)
    (h2 : ∀ c, l.getLast? = some c → isSpaceB c = false) :
    strip_ws l = l := by
  unfold strip_ws
  rw [dropWhile_eq_self isSpaceB l h1]
  rw [dropWhile_eq_self isSpaceB l.reverse
    (fun c hc => h2 c (by rwa [List.head?_reverse] at hc))]
  exact List.reverse_reverse l

/-- A stripped text does not start with whitespace. -/
theorem strip_ws_head (l : List Char) (c : Char) (h : (strip_ws l).head? = some c) :
    isSpaceB c = false := by
  unfold strip_ws at h
  set X := l.dropWhile isSpaceB with hX
  have hpre : ((X.reverse.dropWhile isSpaceB).reverse : List Char) <+: X := by
    have hsuf := List.dropWhile_suffix (l := X.reverse) isSpaceB
    have := List.reverse_prefix.mpr hsuf
    rwa [List.reverse_reverse] at this
  obtain ⟨t, ht⟩ := hpre
  rcases hrev : (X.reverse.dropWhile isSpaceB).reverse with _ | ⟨x, xs⟩
  · rw [hrev] at h
    exact absurd h (by simp)
  · rw [hrev] at h ht
    rw [List.head?_cons, Option.some.injEq] at h
    subst h
    have hXhead : X.head? = some x := by
      rw [← ht]
      rfl
    exact dropWhile_head_not isSpaceB l x hXhead

/-- A stripped text does not end with whitespace. -/
theorem strip_ws_last (l : List Char) (c : Char) (h : (strip_ws l).getLast? = some c) :
    isSpaceB c = false := by
  unfold strip_ws at h
  rw [List.getLast?_reverse] at h
  exact dropWhile_head_not isSpaceB _ c h

/-- Inside a run, collapsing drops spaces until a non-space is emitted. -/
theorem wsGo_true_head (l : List Char) (c : Char) (h : (wsGo true l).head? = some c) :
    isSpaceB c = false := by
  induction l with
  | nil => simp [wsGo] at h
  | cons a rest ih =>
    rw [wsGo] at h
    split_ifs at h with ha
    · exact ih h
    · rw [List.head?_cons, Option.some.injEq] at h
      subst h
      exact Bool.not_eq_true _ |>.mp ha

/-- Collapsing a text containing a non-space yields a nonempty text. -/
theorem wsGo_ne_nil (l : List Char) (hc : ∃ c ∈ l, isSpaceB c = false) :
    ∀ b, wsGo b l ≠ [] := by
  induction l with
  | nil =>
    obtain ⟨c, hc1, _⟩ := hc
    exact absurd hc1 (List.not_mem_nil c)
  | cons a rest ih =>
    intro b
    obtain ⟨c, hc1, hc2⟩ := hc
    match b with
    | true =>
      rw [wsGo]
      split_ifs with ha
      · rcases List.mem_cons.mp hc1 with rfl | h'
        · rw [ha] at hc2
          exact absurd hc2 (by decide)
        · exact ih ⟨c, h', hc2⟩ true
      · exact List.cons_ne_nil a _
    | false =>
      rw [wsGo]
      split_ifs with ha
      · exact List.cons_ne_nil ' ' _
      · exact List.cons_ne_nil a _

/-- The last element of a cons with nonempty tail is the last of the tail. -/
theorem getLast?_cons_of_ne_nil (x : Char) (M : List Char) (hM : M ≠ []) :
    (x :: M).getLast? = M.getLast? := by
  cases M with
  | nil => exact absurd rfl hM
  | cons y ys => rw [List.getLast?_cons_cons]

/-- Collapsing preserves a non-whitespace final character. -/
theorem wsGo_last (l : List Char) :
    (∀ c, l.getLast? = some c → isSpaceB c = false) →
    ∀ b c, (wsGo b l).getLast? = some c → isSpaceB c = false := by
  induction l with
  | nil =>
    intro _ b c hc
    rw [show wsGo b [] = [] from by cases b <;> rfl] at hc
    exact absurd hc (by simp)
  | cons a rest ih =>
    intro h b c hc
    cases rest with
    | nil =>
      have ha := h a (by rw [List.getLast?_singleton])
      have hfix : wsGo b [a] = [a] := by
        match b with
        | true => rw [wsGo, if_neg (by rw [ha]; exact Bool.false_ne_true)]; rfl
        | false => rw [wsGo, if_neg (by rw [ha]; exact Bool.false_ne_true)]; rfl
      rw [hfix, List.getLast?_singleton, Option.some.injEq] at hc
      subst hc
      exact ha
    | cons r rs =>
      have hrest : ∀ d, (r :: rs).getLast? = some d → isSpaceB d = false := by
        intro d hd
        exact h d (by rw [List.getLast?_cons_cons]; exact hd)
      have hg : ∃ g ∈ (r :: rs), isSpaceB g = false := by
        have hne : (r :: rs) ≠ [] := List.cons_ne_nil r rs
        exact ⟨(r :: rs).getLast hne, List.getLast_mem hne,
          hrest _ (List.getLast?_eq_getLast_of_ne_nil hne)⟩
      match b with
      | true =>
        rw [wsGo] at hc
        split_ifs at hc with ha
        · exact ih hrest true c hc
        · rw [getLast?_cons_of_ne_nil a _ (wsGo_ne_nil (r :: rs) hg false)] at hc
          exact ih hrest false c hc
      | false =>
        rw [wsGo] at hc
        split_ifs at hc with ha
        · rw [getLast?_cons_of_ne_nil ' ' _ (wsGo_ne_nil (r :: rs) hg true)] at hc
          exact ih hrest true c hc
        · rw [getLast?_cons_of_ne_nil a _ (wsGo_ne_nil (r :: rs) hg false)] at hc
          exact ih hrest false c hc

/-- The collapsed shape passes to the tail. -/
theorem goodWs_tail (a : Char) (l : List Char) (h : goodWs (a :: l) = true) :
    goodWs l = true := by
  cases l with
  | nil => rfl
  | cons d rest =>
    rw [goodWs, Bool.and_eq_true] at h
    exact h.2

/-- Prepending a non-space preserves the collapsed shape. -/
theorem goodWs_cons_of_nonspace (x : Char) (M : List Char) (hx : isSpaceB x = false)
    (hM : goodWs M = true) : goodWs (x :: M) = true := by
  cases M with
  | nil => rw [goodWs, hx]; rfl
  | cons d rest =>
    rw [goodWs, hM, hx]
    rfl

/-- Prepending a space before a non-space head preserves the collapsed shape. -/
theorem goodWs_cons_space (M : List Char) (hM : goodWs M = true)
    (hhead : ∀ d, M.head? = some d → isSpaceB d = false) :
    goodWs (' ' :: M) = true := by
  cases M with
  | nil => decide
  | cons d rest =>
    have hd := hhead d rfl
    rw [goodWs, hM, hd]
    decide

/-- Collapsing always produces the collapsed shape. -/
theorem wsGo_goodWs (l : List Char) : ∀ b, goodWs (wsGo b l) = true := by
  induction l with
  | nil => intro b; rw [show wsGo b [] = [] from by cases b <;> rfl]; rfl
  | cons a rest ih =>
    intro b
    match b with
    | true =>
      rw [wsGo]
      split_ifs with ha
      · exact ih true
      · exact goodWs_cons_of_nonspace a _ (Bool.not_eq_true _ |>.mp ha) (ih false)
    | false =>
      rw [wsGo]
      split_ifs with ha
      · exact goodWs_cons_space _ (ih true) (fun d hd => wsGo_true_head rest d hd)
      · exact goodWs_cons_of_nonspace a _ (Bool.not_eq_true _ |>.mp ha) (ih false)

/-- Collapsing is the identity on text already in collapsed shape. -/
theorem wsGo_eq_self (l : List Char) (h : goodWs l = true) :
    wsGo false l = l ∧
      ((∀ d, l.head? = some d → isSpaceB d = false) → wsGo true l = l) := by
  induction l with
  | nil => exact ⟨rfl, fun _ => rfl⟩
  | cons a rest ih =>
    obtain ⟨hf, ht⟩ := ih (goodWs_tail a rest h)
    constructor
    · rw [wsGo]
      split_ifs with ha
      · have hcond : a = ' ' ∧ ∀ d, rest.head? = some d → isSpaceB d = false := by
          cases rest with
          | nil =>
            rw [goodWs, ha] at h
            refine ⟨?_, fun d hd => absurd hd (by simp)⟩
            rcases Bool.or_eq_true_iff.mp h with h' | h'
            · exact absurd h' (by decide)
            · exact beq_iff_eq.mp h'
          | cons r rs =>
            rw [goodWs, Bool.and_eq_true] at h
            rcases Bool.or_eq_true_iff.mp h.1 with h' | h'
            · rw [ha] at h'
              exact absurd h' (by decide)
            · rw [Bool.and_eq_true] at h'
              refine ⟨beq_iff_eq.mp h'.1, ?_⟩
              intro d hd
              rw [List.head?_cons, Option.some.injEq] at hd
              subst hd
              simpa using h'.2
        obtain ⟨rfl, hrest⟩ := hcond
        rw [ht hrest]
      · rw [hf]
    · intro hhead
      rw [wsGo, if_neg (by rw [hhead a rfl]; exact Bool.false_ne_true), hf]

/-- Collapsing preserves a non-whitespace first character. -/
theorem collapse_head_nonspace (w : List Char)
    (hw : ∀ d, w.head? = some d → isSpaceB d = false) :
    ∀ c, (wsGo false w).head? = some c → isSpaceB c = false := by
  intro c hc
  cases w with
  | nil => exact absurd hc (by simp [wsGo])
  | cons a rest =>
    have ha := hw a rfl
    rw [wsGo, if_neg (by rw [ha]; exact Bool.false_ne_true)] at hc
    rw [List.head?_cons, Option.some.injEq] at hc
    subst hc
    exact ha

/-- A second cleaning pass fixes any cleaned text that contains no URL-like
token: each stage of the pipeline is the identity on such text. -/
theorem clean_list_idem (l : List Char) (h : hasHttpTok (clean_list l) = false) :
    clean_list (clean_list l) = clean_list l := by
  have hchars := clean_list_chars l
  set v := ((strip_mark '#' (strip_mark '@'
    (remove_http l))).map punct_to_space).map toLowerA with hv
  have hu : clean_list l = collapse_ws (strip_ws v) := rfl
  set u := clean_list l with hudef
  have h1 : remove_http u = u := remove_http_noop u h
  have h2 : strip_mark '@' u = u :=
    strip_mark_noop '@' u (fun c hc => (classB_ne_marker c (hchars c hc).1).1)
  have h3 : strip_mark '#' u = u :=
    strip_mark_noop '#' u (fun c hc => (classB_ne_marker c (hchars c hc).1).2)
  have h4 : u.map punct_to_space = u :=
    map_noop _ u (fun c hc => punct_eq_self c (hchars c hc).1)
  have h5 : u.map toLowerA = u :=
    map_noop _ u (fun c hc => toLowerA_eq_self c (hchars c hc).2)
  have h6 : strip_ws u = u := by
    apply strip_ws_noop
    · intro c hc
      rw [hu] at hc
      exact collapse_head_nonspace (strip_ws v)
        (fun d hd => strip_ws_head v d hd) c hc
    · intro c hc
      rw [hu] at hc
      exact wsGo_last (strip_ws v) (fun d hd => strip_ws_last v d hd) false c hc
  have hgood : goodWs u = true := by
    rw [hu]
    exact wsGo_goodWs (strip_ws v) false
  have h7 : collapse_ws u = u := (wsGo_eq_self u hgood).1
  calc clean_list u
      = collapse_ws (strip_ws (((strip_mark '#' (strip_mark '@'
          (remove_http u))).map punct_to_space).map toLowerA)) := rfl
    _ = u := by rw [h1, h2, h3, h4, h5, h6, h7]

/-- C4 counterexample: the input "HTTPX" normalizes to "httpx" (the URL
regex is case-sensitive, lower-casing happens after it), and a second
normalization deletes "httpx" as a URL-like token, so normalize of normalize
differs from normalize. -/
theorem clean_text_not_idem :
    clean_text (.str (clean_text (.str "HTTPX"))) ≠ clean_text (.str "HTTPX") := by decide

/-- C4 amended: normalization is idempotent for exactly those inputs whose
normalized form contains no occurrence of "http" followed by a
non-whitespace character; on such URL-like leftovers (producible because
lower-casing follows URL removal) a second pass removes more. -/
theorem clean_text_idem (s : String) (h : hasHttpTok (clean_list s.data) = false) :
    clean_text (.str (clean_text (.str s))) = clean_text (.str s) :=
  congrArg String.mk (clean_list_idem s.data h)

/-- Witness for clean_text_idem on a concrete input without URL leftovers. -/
theorem clean_text_idem_w :
    hasHttpTok (clean_list "Hello  World!".data) = false ∧
    clean_text (.str (clean_text (.str "Hello  World!"))) = clean_text (.str "Hello  World!") :=
  ⟨by decide, clean_text_idem "Hello  World!" (by decide)⟩
